import Mathlib

/-!
# Error diffusion engine: a shallow embedding

A shallow embedding of `src/error-diffusion.ts` (Floyd–Steinberg error
diffusion).  JavaScript numbers are modelled as `Option ℚ`, with `none`
playing the role of `NaN`/`undefined`: arithmetic on `none` propagates it,
and every comparison involving `none` is false, exactly as IEEE comparisons
involving `NaN` are.  A `Float64Array` is a `List (Option ℚ)`; reads out of
bounds yield `none` (JS gives `undefined`, which arithmetic coerces to
`NaN`) and writes out of bounds are silently dropped, as on a JS typed
array.  All the rational values arising here are dyadic with small
numerators, so the exact rational arithmetic agrees with the double
precision arithmetic of the source on every concrete run considered.
-/

namespace ErrorDiffusion

/-- JS `a + b` on possibly-NaN numbers. -/
def jsAdd : Option ℚ → Option ℚ → Option ℚ
  | some a, some b => some (a + b)
  | _, _ => none

/-- JS `a - b` on possibly-NaN numbers. -/
def jsSub : Option ℚ → Option ℚ → Option ℚ
  | some a, some b => some (a - b)
  | _, _ => none

/-- JS `a * c` where `c` is a numeric literal (the weights `7/16` …). -/
def jsMulC (a : Option ℚ) (c : ℚ) : Option ℚ := a.map (· * c)

/-- JS `Math.abs(value - level)` where `level` is a plain number. -/
def jsAbsSub (value : Option ℚ) (level : ℚ) : Option ℚ := value.map (fun v => |v - level|)

/-- JS `a < b`: false whenever either side is `NaN`. -/
def jsLt : Option ℚ → Option ℚ → Bool
  | some a, some b => decide (a < b)
  | _, _ => false

/-- `findNearestLevel(value, levels)` from `error-diffusion.ts`: start from
`levels[0]`, scan the whole palette, replace on strict improvement.  On an
empty palette the JS code returns `undefined` (modelled by `none`). -/
def findNearestLevel (value : Option ℚ) (levels : List ℚ) : Option ℚ :=
  match levels with
  | [] => none
  | l0 :: _ =>
    let p := levels.foldl
      (fun st level =>
        let distance := jsAbsSub value level
        if jsLt distance st.2 then (level, distance) else st)
      (l0, jsAbsSub value l0)
    some p.1

/-- Read `buf[i]` on a typed array: `undefined` (hence `NaN`) out of bounds. -/
def readBuf (buf : List (Option ℚ)) (i : ℤ) : Option ℚ :=
  if 0 ≤ i then buf.getD i.toNat none else none

/-- Write `buf[i] = v` on a typed array: silently dropped out of bounds. -/
def writeBuf (buf : List (Option ℚ)) (i : ℤ) (v : Option ℚ) : List (Option ℚ) :=
  if 0 ≤ i then buf.set i.toNat v else buf

/-- `buf[i] += e` on a typed array. -/
def depositAt (buf : List (Option ℚ)) (i : ℤ) (e : Option ℚ) : List (Option ℚ) :=
  writeBuf buf i (jsAdd (readBuf buf i) e)

/-- The body of the double loop of `applyErrorDiffusion` for one pixel
`(x, y)`: quantize, store, and distribute the error to the four
Floyd–Steinberg neighbours, each deposit guarded by the bounds checks of
the source. -/
def processPixel (width height : ℤ) (levels : List ℚ) (buf : List (Option ℚ)) (x y : ℤ) :
    List (Option ℚ) :=
  let index := y * width + x
  let oldPixel := readBuf buf index
  let newPixel := findNearestLevel oldPixel levels
  let buf1 := writeBuf buf index newPixel
  let error := jsSub oldPixel newPixel
  let buf2 := if x + 1 < width then
      depositAt buf1 (y * width + (x + 1)) (jsMulC error (7/16)) else buf1
  let buf3 := if 0 ≤ x - 1 ∧ y + 1 < height then
      depositAt buf2 ((y + 1) * width + (x - 1)) (jsMulC error (3/16)) else buf2
  let buf4 := if y + 1 < height then
      depositAt buf3 ((y + 1) * width + x) (jsMulC error (5/16)) else buf3
  if x + 1 < width ∧ y + 1 < height then
      depositAt buf4 ((y + 1) * width + (x + 1)) (jsMulC error (1/16)) else buf4

/-- The raster-order double loop of `applyErrorDiffusion`:
`for (y = 0; y < height; y++) for (x = 0; x < width; x++)`. -/
def diffuseLoop (width height : ℤ) (levels : List ℚ) (buf : List (Option ℚ)) :
    List (Option ℚ) :=
  (List.range height.toNat).foldl
    (fun b (y : ℕ) => (List.range width.toNat).foldl
      (fun b2 (x : ℕ) => processPixel width height levels b2 (x : ℤ) (y : ℤ)) b)
    buf

/-- JS `Math.round`: round half toward `+∞`. -/
def jsRound (q : ℚ) : ℤ := ⌊q + 1/2⌋

/-- `Math.max(0, Math.min(255, Math.round(value)))`, followed by the
`Uint8Array` coercion, which sends `NaN` to `0`. -/
def finalize : Option ℚ → ℕ
  | none => 0
  | some v => (max 0 (min 255 (jsRound v))).toNat

/-- `applyErrorDiffusion(imageData, width, height, levels)` from
`error-diffusion.ts`: copy the input into a working buffer, run the raster
scan, then round and clamp every cell back to a `Uint8` value. -/
def applyErrorDiffusion (imageData : List ℚ) (width height : ℤ) (levels : List ℚ) :
    List ℕ :=
  (diffuseLoop width height levels (imageData.map some)).map finalize

/-- Proof-side companion of the scan inside `findNearestLevel`, on plain
rationals (no `NaN` can arise once the scanned value is an actual number). -/
def scanNearest (v : ℚ) (st : ℚ × ℚ) : List ℚ → ℚ × ℚ
  | [] => st
  | l :: ls => scanNearest v (if |v - l| < st.2 then (l, |v - l|) else st) ls

/-- Every cell of index `< k` already holds a quantized value: the image of
some (possibly `NaN`) working value under the quantizer. -/
def Finalized (levels : List ℚ) (buf : List (Option ℚ)) (k : ℕ) : Prop :=
  ∀ i : ℕ, i < k → ∃ v : Option ℚ, buf.get? i = some (findNearestLevel v levels)

/-- No cell of the working buffer holds `NaN`. -/
def AllSome (buf : List (Option ℚ)) : Prop :=
  ∀ c ∈ buf, c ≠ none

/-- Total signal of a working buffer (`NaN` cells count as `0`). -/
def sumBuf (buf : List (Option ℚ)) : ℚ :=
  (buf.map (fun o => o.getD 0)).sum

theorem findNearestLevel_nil (value : Option ℚ) : findNearestLevel value [] = none := rfl

theorem fnl_fold_fst_mem (value : Option ℚ) (big : List ℚ) :
    ∀ (rest : List ℚ) (st : ℚ × Option ℚ), st.1 ∈ big → (∀ l ∈ rest, l ∈ big) →
    (rest.foldl (fun st level =>
        let distance := jsAbsSub value level
        if jsLt distance st.2 then (level, distance) else st) st).1 ∈ big := by
  intro rest
  induction rest with
  | nil => intro st h _; exact h
  | cons l ls ih =>
    intro st hst hsub
    simp only [List.foldl_cons]
    by_cases h : jsLt (jsAbsSub value l) st.2
    · simp only [h, if_true]
      exact ih _ (hsub l (List.mem_cons_self l ls)) fun m hm => hsub m (List.mem_cons_of_mem _ hm)
    · simp only [h, if_false]
      exact ih _ hst fun m hm => hsub m (List.mem_cons_of_mem _ hm)

theorem findNearestLevel_mem (value : Option ℚ) (levels : List ℚ) (h : levels ≠ []) :
    ∃ r ∈ levels, findNearestLevel value levels = some r := by
  cases levels with
  | nil => exact absurd rfl h
  | cons l0 ls =>
    refine ⟨_, ?_, rfl⟩
    exact fnl_fold_fst_mem value (l0 :: ls) (l0 :: ls) (l0, jsAbsSub value l0)
      (List.mem_cons_self l0 ls) (fun m hm => hm)

theorem findNearestLevel_singleton (value : Option ℚ) (l : ℚ) :
    findNearestLevel value [l] = some l := by
  cases value with
  | none => rfl
  | some v => simp [findNearestLevel, jsAbsSub, jsLt]

theorem fnl_fold_eq_scan (v : ℚ) :
    ∀ (rest : List ℚ) (n d : ℚ),
    rest.foldl (fun st level =>
        let distance := jsAbsSub (some v) level
        if jsLt distance st.2 then (level, distance) else st) (n, some d)
      = ((scanNearest v (n, d) rest).1, some (scanNearest v (n, d) rest).2) := by
  intro rest
  induction rest with
  | nil => intro n d; rfl
  | cons l ls ih =>
    intro n d
    rw [List.foldl_cons]
    have hstep : (let distance := jsAbsSub (some v) l
        if jsLt distance (n, some d).2 then (l, distance) else (n, some d))
        = if |v - l| < d then (l, some |v - l|) else (n, some d) := by
      simp only [jsAbsSub, Option.map_some', jsLt, decide_eq_true_eq]
    rw [hstep]
    by_cases h : |v - l| < d
    · simp only [h, if_true]
      have hsc : scanNearest v (n, d) (l :: ls) = scanNearest v (l, |v - l|) ls := by
        simp only [scanNearest, h, if_true]
      rw [hsc]
      exact ih l |v - l|
    · simp only [h, if_false]
      have hsc : scanNearest v (n, d) (l :: ls) = scanNearest v (n, d) ls := by
        simp only [scanNearest, h, if_false]
      rw [hsc]
      exact ih n d

theorem findNearestLevel_some_eq (v : ℚ) (l0 : ℚ) (ls : List ℚ) :
    findNearestLevel (some v) (l0 :: ls) =
      some (scanNearest v (l0, |v - l0|) (l0 :: ls)).1 := by
  have h0 : jsAbsSub (some v) l0 = some |v - l0| := rfl
  simp only [findNearestLevel]
  rw [h0, fnl_fold_eq_scan]

theorem scanNearest_main (v : ℚ) :
    ∀ (rest : List ℚ) (n : ℚ), (∀ m ∈ rest, n ≤ m) → rest.Sorted (· ≤ ·) →
    ((scanNearest v (n, |v - n|) rest).1 = n ∨ (scanNearest v (n, |v - n|) rest).1 ∈ rest) ∧
    |v - (scanNearest v (n, |v - n|) rest).1| ≤ |v - n| ∧
    (∀ m ∈ rest, |v - (scanNearest v (n, |v - n|) rest).1| ≤ |v - m|) ∧
    (|v - (scanNearest v (n, |v - n|) rest).1| = |v - n| →
      (scanNearest v (n, |v - n|) rest).1 = n) ∧
    (∀ m ∈ rest, |v - m| = |v - (scanNearest v (n, |v - n|) rest).1| →
      (scanNearest v (n, |v - n|) rest).1 ≤ m) := by
  intro rest
  induction rest with
  | nil =>
    intro n _ _
    refine ⟨Or.inl rfl, le_refl _, ?_, fun _ => rfl, ?_⟩ <;> intro m hm <;> cases hm
  | cons l ls ih =>
    intro n hb hs
    have hls : ls.Sorted (· ≤ ·) := (List.sorted_cons.mp hs).2
    have hlls : ∀ m ∈ ls, l ≤ m := (List.sorted_cons.mp hs).1
    have hnl : n ≤ l := hb l (List.mem_cons_self l ls)
    by_cases h : |v - l| < |v - n|
    · have hstep : scanNearest v (n, |v - n|) (l :: ls) = scanNearest v (l, |v - l|) ls := by
        simp only [scanNearest, h, if_true]
      obtain ⟨m1, m2, m3, m5, m4⟩ := ih l hlls hls
      rw [hstep]
      refine ⟨?_, le_of_lt (lt_of_le_of_lt m2 h), ?_, ?_, ?_⟩
      · rcases m1 with h1 | h1
        · exact Or.inr (by rw [h1]; exact List.mem_cons_self l ls)
        · exact Or.inr (List.mem_cons_of_mem _ h1)
      · intro m hm
        rcases List.mem_cons.mp hm with rfl | hm'
        · exact m2
        · exact m3 m hm'
      · intro heq
        exact absurd h (not_lt_of_le (heq ▸ m2))
      · intro m hm heq
        rcases List.mem_cons.mp hm with rfl | hm'
        · exact le_of_eq (m5 heq.symm)
        · exact m4 m hm' heq
    · have hstep : scanNearest v (n, |v - n|) (l :: ls) = scanNearest v (n, |v - n|) ls := by
        simp only [scanNearest, h, if_false]
      have hnle : |v - n| ≤ |v - l| := not_lt.mp h
      obtain ⟨m1, m2, m3, m5, m4⟩ := ih n (fun m hm => hb m (List.mem_cons_of_mem _ hm)) hls
      rw [hstep]
      refine ⟨?_, m2, ?_, m5, ?_⟩
      · rcases m1 with h1 | h1
        · exact Or.inl h1
        · exact Or.inr (List.mem_cons_of_mem _ h1)
      · intro m hm
        rcases List.mem_cons.mp hm with rfl | hm'
        · exact le_trans m2 hnle
        · exact m3 m hm'
      · intro m hm heq
        rcases List.mem_cons.mp hm with rfl | hm'
        · have h1 : |v - (scanNearest v (n, |v - n|) ls).1| = |v - n| :=
            le_antisymm m2 (heq ▸ hnle)
          rw [m5 h1]
          exact hnl
        · exact m4 m hm' heq

theorem findNearestLevel_min (v : ℚ) (levels : List ℚ) (h : levels ≠ [])
    (hs : levels.Sorted (· ≤ ·)) :
    ∃ r, findNearestLevel (some v) levels = some r ∧ r ∈ levels ∧
      (∀ m ∈ levels, |v - r| ≤ |v - m|) ∧
      (∀ m ∈ levels, |v - m| = |v - r| → r ≤ m) := by
  cases levels with
  | nil => exact absurd rfl h
  | cons l0 ls =>
    have hb : ∀ m ∈ l0 :: ls, l0 ≤ m := by
      intro m hm
      rcases List.mem_cons.mp hm with rfl | hm'
      · exact le_refl _
      · exact (List.sorted_cons.mp hs).1 m hm'
    obtain ⟨m1, m2, m3, m5, m4⟩ := scanNearest_main v (l0 :: ls) l0 hb hs
    refine ⟨_, findNearestLevel_some_eq v l0 ls, ?_, m3, m4⟩
    rcases m1 with h1 | h1
    · rw [h1]; exact List.mem_cons_self l0 ls
    · exact h1

theorem length_writeBuf (buf : List (Option ℚ)) (i : ℤ) (v : Option ℚ) :
    (writeBuf buf i v).length = buf.length := by
  unfold writeBuf
  split <;> simp

theorem length_depositAt (buf : List (Option ℚ)) (i : ℤ) (e : Option ℚ) :
    (depositAt buf i e).length = buf.length :=
  length_writeBuf buf i (jsAdd (readBuf buf i) e)

theorem writeBuf_get?_ne (buf : List (Option ℚ)) (i : ℤ) (v : Option ℚ) (j : ℕ)
    (hj : (j : ℤ) ≠ i) :
    (writeBuf buf i v).get? j = buf.get? j := by
  unfold writeBuf
  split
  next h => exact List.get?_set_ne v buf fun hc => hj (hc ▸ Int.toNat_of_nonneg h)
  next => rfl

theorem writeBuf_get?_natCast (buf : List (Option ℚ)) (k : ℕ) (v : Option ℚ)
    (hlt : k < buf.length) :
    (writeBuf buf (k : ℤ) v).get? k = some v := by
  unfold writeBuf
  rw [if_pos (Int.natCast_nonneg k), Int.toNat_natCast]
  exact List.get?_set_eq_of_lt v hlt

theorem depositAt_get?_ne (buf : List (Option ℚ)) (i : ℤ) (e : Option ℚ) (j : ℕ)
    (hj : (j : ℤ) ≠ i) :
    (depositAt buf i e).get? j = buf.get? j :=
  writeBuf_get?_ne buf i (jsAdd (readBuf buf i) e) j hj

theorem length_processPixel (width height : ℤ) (levels : List ℚ) (buf : List (Option ℚ))
    (x y : ℤ) :
    (processPixel width height levels buf x y).length = buf.length := by
  simp only [processPixel]
  split_ifs <;> simp [length_depositAt, length_writeBuf]

theorem idx_lt (W H x y : ℕ) (hx : x < W) (hy : y < H) : y * W + x < W * H := by
  calc y * W + x < y * W + W := by omega
    _ = (y + 1) * W := by ring
    _ ≤ H * W := mul_le_mul_right' (by omega) W
    _ = W * H := mul_comm H W

theorem processPixel_get?_lt (W H x y : ℕ) (levels : List ℚ) (buf : List (Option ℚ))
    (hx : x < W) (j : ℕ) (hj : j < y * W + x) :
    (processPixel (W : ℤ) (H : ℤ) levels buf (x : ℤ) (y : ℤ)).get? j = buf.get? j := by
  have hW1 : 1 ≤ W := lt_of_le_of_lt (Nat.zero_le x) hx
  simp only [processPixel]
  rw [show (y : ℤ) * W + x = ((y * W + x : ℕ) : ℤ) by push_cast; ring,
      show (y : ℤ) * W + ((x : ℤ) + 1) = ((y * W + x : ℕ) : ℤ) + 1 by push_cast; ring,
      show ((y : ℤ) + 1) * W + ((x : ℤ) - 1) = ((y * W + x : ℕ) : ℤ) + W - 1 by
        push_cast; ring,
      show ((y : ℤ) + 1) * W + (x : ℤ) = ((y * W + x : ℕ) : ℤ) + W by push_cast; ring,
      show ((y : ℤ) + 1) * W + ((x : ℤ) + 1) = ((y * W + x : ℕ) : ℤ) + W + 1 by
        push_cast; ring]
  generalize y * W + x = k at hj ⊢
  split_ifs
  all_goals
    repeat first
      | rw [depositAt_get?_ne]
      | rw [writeBuf_get?_ne]
  all_goals omega

theorem processPixel_get?_self (W H x y : ℕ) (levels : List ℚ) (buf : List (Option ℚ))
    (hx : x < W) (hy : y < H) (hlen : buf.length = W * H) :
    (processPixel (W : ℤ) (H : ℤ) levels buf (x : ℤ) (y : ℤ)).get? (y * W + x)
      = some (findNearestLevel (readBuf buf ((y * W + x : ℕ) : ℤ)) levels) := by
  have hW1 : 1 ≤ W := lt_of_le_of_lt (Nat.zero_le x) hx
  have hk : y * W + x < buf.length := by rw [hlen]; exact idx_lt W H x y hx hy
  simp only [processPixel]
  rw [show (y : ℤ) * W + x = ((y * W + x : ℕ) : ℤ) by push_cast; ring,
      show (y : ℤ) * W + ((x : ℤ) + 1) = ((y * W + x : ℕ) : ℤ) + 1 by push_cast; ring,
      show ((y : ℤ) + 1) * W + ((x : ℤ) - 1) = ((y * W + x : ℕ) : ℤ) + W - 1 by
        push_cast; ring,
      show ((y : ℤ) + 1) * W + (x : ℤ) = ((y * W + x : ℕ) : ℤ) + W by push_cast; ring,
      show ((y : ℤ) + 1) * W + ((x : ℤ) + 1) = ((y * W + x : ℕ) : ℤ) + W + 1 by
        push_cast; ring]
  generalize hgen : y * W + x = k at hk ⊢
  split_ifs with h1 h2 h3 h4
  all_goals
    repeat first
      | rw [depositAt_get?_ne]
      | rw [writeBuf_get?_natCast _ _ _ hk]
  all_goals omega

theorem Finalized_zero (levels : List ℚ) (buf : List (Option ℚ)) :
    Finalized levels buf 0 :=
  fun i h => absurd h (Nat.not_lt_zero i)

theorem row_fold_spec (W H y : ℕ) (levels : List ℚ) (buf : List (Option ℚ))
    (hy : y < H) (hlen : buf.length = W * H) (hfin : Finalized levels buf (y * W)) :
    ∀ n, n ≤ W →
    ((List.range n).foldl
      (fun b (x : ℕ) => processPixel (W : ℤ) (H : ℤ) levels b (x : ℤ) (y : ℤ)) buf).length = W * H ∧
    Finalized levels
      ((List.range n).foldl
        (fun b (x : ℕ) => processPixel (W : ℤ) (H : ℤ) levels b (x : ℤ) (y : ℤ)) buf)
      (y * W + n) := by
  intro n
  induction n with
  | zero =>
    intro _
    simp only [List.range_zero, List.foldl_nil, Nat.add_zero]
    exact ⟨hlen, hfin⟩
  | succ m ih =>
    intro hm
    have hmW : m < W := hm
    obtain ⟨ihlen, ihfin⟩ := ih (le_of_lt hmW)
    rw [List.range_succ, List.foldl_append, List.foldl_cons, List.foldl_nil]
    set bufm := (List.range m).foldl
      (fun b (x : ℕ) => processPixel (W : ℤ) (H : ℤ) levels b (x : ℤ) (y : ℤ)) buf with hbufm
    refine ⟨by rw [length_processPixel]; exact ihlen, ?_⟩
    intro i hi
    have hcase : i < y * W + m ∨ i = y * W + m := by omega
    rcases hcase with hlt | rfl
    · rw [processPixel_get?_lt W H m y levels bufm hmW i hlt]
      exact ihfin i hlt
    · rw [processPixel_get?_self W H m y levels bufm hmW hy ihlen]
      exact ⟨readBuf bufm ((y * W + m : ℕ) : ℤ), rfl⟩

theorem grid_fold_spec (W H : ℕ) (levels : List ℚ) (buf : List (Option ℚ))
    (hlen : buf.length = W * H) :
    ∀ n, n ≤ H →
    ((List.range n).foldl
      (fun b (y : ℕ) => (List.range W).foldl
        (fun b2 (x : ℕ) => processPixel (W : ℤ) (H : ℤ) levels b2 (x : ℤ) (y : ℤ)) b)
      buf).length = W * H ∧
    Finalized levels
      ((List.range n).foldl
        (fun b (y : ℕ) => (List.range W).foldl
          (fun b2 (x : ℕ) => processPixel (W : ℤ) (H : ℤ) levels b2 (x : ℤ) (y : ℤ)) b)
        buf)
      (n * W) := by
  intro n
  induction n with
  | zero =>
    intro _
    simp only [List.range_zero, List.foldl_nil, Nat.zero_mul]
    exact ⟨hlen, Finalized_zero levels buf⟩
  | succ m ih =>
    intro hm
    obtain ⟨ihlen, ihfin⟩ := ih (by omega)
    rw [List.range_succ, List.foldl_append, List.foldl_cons, List.foldl_nil]
    set bufm := (List.range m).foldl
      (fun b (y : ℕ) => (List.range W).foldl
        (fun b2 (x : ℕ) => processPixel (W : ℤ) (H : ℤ) levels b2 (x : ℤ) (y : ℤ)) b)
      buf with hbufm
    rw [Nat.succ_mul]
    exact row_fold_spec W H m levels bufm (by omega) ihlen ihfin W (le_refl W)

theorem diffuseLoop_spec (W H : ℕ) (levels : List ℚ) (buf : List (Option ℚ))
    (hlen : buf.length = W * H) :
    (diffuseLoop (W : ℤ) (H : ℤ) levels buf).length = W * H ∧
    Finalized levels (diffuseLoop (W : ℤ) (H : ℤ) levels buf) (W * H) := by
  have h := grid_fold_spec W H levels buf hlen H (le_refl H)
  rw [Nat.mul_comm H W] at h
  unfold diffuseLoop
  rw [Int.toNat_natCast, Int.toNat_natCast]
  exact h

theorem jsRound_intCast (k : ℤ) : jsRound (k : ℚ) = k := by
  have h0 : ⌊(1 / 2 : ℚ)⌋ = 0 := by
    rw [Int.floor_eq_iff]
    norm_num
  rw [jsRound, Int.floor_int_add, h0, add_zero]

theorem jsRound_natCast (k : ℕ) : jsRound (k : ℚ) = (k : ℤ) := by
  have h := jsRound_intCast (k : ℤ)
  rwa [Int.cast_natCast] at h

theorem finalize_natCast (k : ℕ) (hk : k ≤ 255) : finalize (some (k : ℚ)) = k := by
  simp only [finalize, jsRound_natCast]
  omega

theorem finalize_le (c : Option ℚ) : finalize c ≤ 255 := by
  cases c with
  | none => simp [finalize]
  | some v => simp only [finalize]; omega

theorem applyErrorDiffusion_cells (W H : ℕ) (d levels : List ℚ)
    (hlen : d.length = W * H) :
    (applyErrorDiffusion d (W : ℤ) (H : ℤ) levels).length = W * H ∧
    ∀ n ∈ applyErrorDiffusion d (W : ℤ) (H : ℤ) levels,
      ∃ v : Option ℚ, n = finalize (findNearestLevel v levels) := by
  have hmap : (d.map some).length = W * H := by simpa using hlen
  obtain ⟨hl, hf⟩ := diffuseLoop_spec W H levels (d.map some) hmap
  constructor
  · simp only [applyErrorDiffusion, List.length_map]
    exact hl
  · intro n hn
    obtain ⟨c, hc, rfl⟩ := List.mem_map.mp hn
    obtain ⟨i, hi⟩ := List.mem_iff_get?.mp hc
    have hiLt : i < W * H := by
      obtain ⟨hbound, -⟩ := List.get?_eq_some.mp hi
      rwa [hl] at hbound
    obtain ⟨v, hv⟩ := hf i hiLt
    rw [hi] at hv
    exact ⟨v, congrArg finalize (Option.some_inj.mp hv)⟩

/-- C2 (amended): with an empty palette `applyErrorDiffusion` does not fail
and raises no error: `findNearestLevel` returns JS `undefined`, the working
buffer fills with `NaN`, and the final `Uint8Array` conversion maps `NaN`
to `0`, so the engine returns an all-zero buffer of length `W*H`. -/
theorem empty_palette_zeros (W H : ℕ) (d : List ℚ) (hlen : d.length = W * H) :
    applyErrorDiffusion d (W : ℤ) (H : ℤ) [] = List.replicate (W * H) 0 := by
  obtain ⟨hl, hall⟩ := applyErrorDiffusion_cells W H d [] hlen
  rw [List.eq_replicate]
  refine ⟨hl, ?_⟩
  intro b hb
  obtain ⟨v, rfl⟩ := hall b hb
  rw [findNearestLevel_nil]
  rfl

/-- C3 (amended): `applyErrorDiffusion` performs no dimension validation and
raises no `InvalidDimensions` error.  When width or height is negative the
corresponding loop bound is empty, so no pixel is processed and the function
returns the input buffer with each value merely rounded and clamped to
`[0,255]` by the final conversion. -/
theorem negative_dims (d levels : List ℚ) (W H : ℤ) (h : W < 0 ∨ H < 0) :
    applyErrorDiffusion d W H levels = d.map (fun v => finalize (some v)) := by
  unfold applyErrorDiffusion diffuseLoop
  rcases h with hW | hH
  · rw [show W.toNat = 0 by omega]
    simp only [List.range_zero, List.foldl_nil, List.foldl_fixed, List.map_map]
    rfl
  · rw [show H.toNat = 0 by omega]
    simp only [List.range_zero, List.foldl_nil, List.map_map]
    rfl

theorem sumBuf_cons (c : Option ℚ) (l : List (Option ℚ)) :
    sumBuf (c :: l) = c.getD 0 + sumBuf l := rfl

theorem sumBuf_set (buf : List (Option ℚ)) :
    ∀ (n : ℕ), n < buf.length → ∀ (v : Option ℚ),
    sumBuf (buf.set n v) = sumBuf buf - (buf.getD n none).getD 0 + v.getD 0 := by
  induction buf with
  | nil => intro n hn; simp at hn
  | cons c cs ih =>
    intro n hn v
    cases n with
    | zero =>
      simp only [List.set_cons_zero, sumBuf_cons, List.getD_cons_zero]
      ring
    | succ m =>
      simp only [List.set_cons_succ, sumBuf_cons, List.getD_cons_succ]
      rw [ih m (by simpa using hn) v]
      ring

theorem AllSome_set (buf : List (Option ℚ)) (n : ℕ) (q : ℚ) (h : AllSome buf) :
    AllSome (buf.set n (some q)) := by
  intro c hc
  rcases List.mem_or_eq_of_mem_set hc with h1 | h1
  · exact h c h1
  · rw [h1]; exact Option.some_ne_none q

theorem readBuf_eq_getD (buf : List (Option ℚ)) (k : ℕ) :
    readBuf buf (k : ℤ) = buf.getD k none := by
  unfold readBuf
  rw [if_pos (Int.natCast_nonneg k), Int.toNat_natCast]

theorem AllSome_getD (buf : List (Option ℚ)) (k : ℕ) (hk : k < buf.length)
    (h : AllSome buf) : ∃ a : ℚ, buf.getD k none = some a := by
  have hmem : buf.getD k none ∈ buf := by
    rw [List.getD_eq_getElem buf none hk]
    exact List.getElem_mem hk
  exact Option.ne_none_iff_exists'.mp (h _ hmem)

theorem sumBuf_writeBuf (buf : List (Option ℚ)) (k : ℕ) (hk : k < buf.length)
    (v : Option ℚ) :
    sumBuf (writeBuf buf (k : ℤ) v)
      = sumBuf buf - (buf.getD k none).getD 0 + v.getD 0 := by
  unfold writeBuf
  rw [if_pos (Int.natCast_nonneg k), Int.toNat_natCast]
  exact sumBuf_set buf k hk v

theorem AllSome_writeBuf_some (buf : List (Option ℚ)) (i : ℤ) (q : ℚ) (h : AllSome buf) :
    AllSome (writeBuf buf i (some q)) := by
  unfold writeBuf
  split
  · exact AllSome_set buf _ q h
  · exact h

theorem depositAt_some_eq (buf : List (Option ℚ)) (k : ℕ) (a e : ℚ)
    (ha : buf.getD k none = some a) :
    depositAt buf (k : ℤ) (some e) = writeBuf buf (k : ℤ) (some (a + e)) := by
  unfold depositAt
  rw [readBuf_eq_getD, ha]
  rfl

theorem sumBuf_depositAt_some (buf : List (Option ℚ)) (k : ℕ) (e : ℚ)
    (hk : k < buf.length) (h : AllSome buf) :
    sumBuf (depositAt buf (k : ℤ) (some e)) = sumBuf buf + e ∧
    AllSome (depositAt buf (k : ℤ) (some e)) := by
  obtain ⟨a, ha⟩ := AllSome_getD buf k hk h
  rw [depositAt_some_eq buf k a e ha]
  constructor
  · rw [sumBuf_writeBuf buf k hk (some (a + e)), ha]
    simp only [Option.getD_some]
    ring
  · exact AllSome_writeBuf_some buf _ _ h

/-- C7: for an interior pixel (not in the first or last column and not in
the last row) the four error fractions `7/16, 3/16, 5/16, 1/16` deposited by
`processPixel` sum to exactly the pixel's computed error, so the total
signal of the working buffer is conserved by the step. -/
theorem processPixel_sum_interior (W H x y : ℕ) (levels : List ℚ)
    (buf : List (Option ℚ)) (hne : levels ≠ []) (hAll : AllSome buf)
    (hlen : buf.length = W * H) (hx1 : 1 ≤ x) (hxW : x + 1 < W) (hyH : y + 1 < H) :
    sumBuf (processPixel (W : ℤ) (H : ℤ) levels buf (x : ℤ) (y : ℤ)) = sumBuf buf := by
  obtain ⟨x', rfl⟩ : ∃ x', x = x' + 1 := ⟨x - 1, by omega⟩
  have hkidx : y * W + (x' + 1) < buf.length := by
    rw [hlen]; exact idx_lt W H (x' + 1) y (by omega) (by omega)
  have hk1 : y * W + (x' + 2) < buf.length := by
    rw [hlen]; exact idx_lt W H (x' + 2) y (by omega) (by omega)
  have hk2 : (y + 1) * W + x' < buf.length := by
    rw [hlen]; exact idx_lt W H x' (y + 1) (by omega) (by omega)
  have hk3 : (y + 1) * W + (x' + 1) < buf.length := by
    rw [hlen]; exact idx_lt W H (x' + 1) (y + 1) (by omega) (by omega)
  have hk4 : (y + 1) * W + (x' + 2) < buf.length := by
    rw [hlen]; exact idx_lt W H (x' + 2) (y + 1) (by omega) (by omega)
  simp only [processPixel]
  rw [if_pos (show ((x' + 1 : ℕ) : ℤ) + 1 < (W : ℤ) by omega),
      if_pos (show (0 : ℤ) ≤ ((x' + 1 : ℕ) : ℤ) - 1 ∧ ((y : ℕ) : ℤ) + 1 < (H : ℤ) by
        constructor <;> omega),
      if_pos (show ((y : ℕ) : ℤ) + 1 < (H : ℤ) by omega),
      if_pos (show ((x' + 1 : ℕ) : ℤ) + 1 < (W : ℤ) ∧ ((y : ℕ) : ℤ) + 1 < (H : ℤ) by
        constructor <;> omega)]
  rw [show (y : ℤ) * W + ((x' + 1 : ℕ) : ℤ) = ((y * W + (x' + 1) : ℕ) : ℤ) by
        push_cast; ring,
      show (y : ℤ) * W + (((x' + 1 : ℕ) : ℤ) + 1) = ((y * W + (x' + 2) : ℕ) : ℤ) by
        push_cast; ring,
      show ((y : ℤ) + 1) * W + (((x' + 1 : ℕ) : ℤ) - 1) = (((y + 1) * W + x' : ℕ) : ℤ) by
        push_cast; ring,
      show ((y : ℤ) + 1) * W + ((x' + 1 : ℕ) : ℤ) = (((y + 1) * W + (x' + 1) : ℕ) : ℤ) by
        push_cast; ring,
      show ((y : ℤ) + 1) * W + (((x' + 1 : ℕ) : ℤ) + 1)
          = (((y + 1) * W + (x' + 2) : ℕ) : ℤ) by push_cast; ring]
  obtain ⟨v, hv⟩ := AllSome_getD buf (y * W + (x' + 1)) hkidx hAll
  have hrb : readBuf buf ((y * W + (x' + 1) : ℕ) : ℤ) = some v := by
    rw [readBuf_eq_getD, hv]
  obtain ⟨q, hqmem, hq⟩ := findNearestLevel_mem (some v) levels hne
  rw [hrb, hq,
      show jsSub (some v) (some q) = some (v - q) from rfl,
      show jsMulC (some (v - q)) (7/16) = some ((v - q) * (7/16)) from rfl,
      show jsMulC (some (v - q)) (3/16) = some ((v - q) * (3/16)) from rfl,
      show jsMulC (some (v - q)) (5/16) = some ((v - q) * (5/16)) from rfl,
      show jsMulC (some (v - q)) (1/16) = some ((v - q) * (1/16)) from rfl]
  set buf1 := writeBuf buf ((y * W + (x' + 1) : ℕ) : ℤ) (some q) with hbuf1
  have hb1sum : sumBuf buf1 = sumBuf buf - v + q := by
    rw [hbuf1, sumBuf_writeBuf buf _ hkidx (some q), hv]
    simp only [Option.getD_some]
  have hb1all : AllSome buf1 := AllSome_writeBuf_some buf _ q hAll
  have hb1len : buf1.length = buf.length := length_writeBuf buf _ _
  obtain ⟨s2, hb2all⟩ := sumBuf_depositAt_some buf1 (y * W + (x' + 2))
    ((v - q) * (7/16)) (by rw [hb1len]; exact hk1) hb1all
  set buf2 := depositAt buf1 ((y * W + (x' + 2) : ℕ) : ℤ) (some ((v - q) * (7/16)))
    with hbuf2
  have hb2len : buf2.length = buf.length := by
    rw [hbuf2, length_depositAt, hb1len]
  obtain ⟨s3, hb3all⟩ := sumBuf_depositAt_some buf2 ((y + 1) * W + x')
    ((v - q) * (3/16)) (by rw [hb2len]; exact hk2) hb2all
  set buf3 := depositAt buf2 (((y + 1) * W + x' : ℕ) : ℤ) (some ((v - q) * (3/16)))
    with hbuf3
  have hb3len : buf3.length = buf.length := by
    rw [hbuf3, length_depositAt, hb2len]
  obtain ⟨s4, hb4all⟩ := sumBuf_depositAt_some buf3 ((y + 1) * W + (x' + 1))
    ((v - q) * (5/16)) (by rw [hb3len]; exact hk3) hb3all
  set buf4 := depositAt buf3 (((y + 1) * W + (x' + 1) : ℕ) : ℤ) (some ((v - q) * (5/16)))
    with hbuf4
  have hb4len : buf4.length = buf.length := by
    rw [hbuf4, length_depositAt, hb3len]
  obtain ⟨s5, -⟩ := sumBuf_depositAt_some buf4 ((y + 1) * W + (x' + 2))
    ((v - q) * (1/16)) (by rw [hb4len]; exact hk4) hb4all
  rw [s5, s4, s3, s2, hb1sum]
  ring

theorem applyErrorDiffusion_one (v : ℚ) (levels : List ℚ) :
    applyErrorDiffusion [v] 1 1 levels
      = [finalize (findNearestLevel (some v) levels)] := by
  with_unfolding_all rfl

/-- C1: for every input buffer of integers in `[0,255]` whose length matches
`W*H` and every non-empty ascending palette of distinct integers in
`[0,255]`, the buffer returned by `applyErrorDiffusion` has length `W*H`
and every element of it is a member of the supplied palette. -/
theorem palette_membership (W H : ℕ) (d levels : List ℚ)
    (hlen : d.length = W * H)
    (hd : ∀ v ∈ d, ∃ k : ℕ, k ≤ 255 ∧ v = (k : ℚ))
    (hne : levels ≠ [])
    (hpal : ∀ l ∈ levels, ∃ k : ℕ, k ≤ 255 ∧ l = (k : ℚ))
    (hsort : levels.Sorted (· < ·)) :
    (applyErrorDiffusion d (W : ℤ) (H : ℤ) levels).length = W * H ∧
    ∀ n ∈ applyErrorDiffusion d (W : ℤ) (H : ℤ) levels, (n : ℚ) ∈ levels := by
  obtain ⟨hl, hall⟩ := applyErrorDiffusion_cells W H d levels hlen
  refine ⟨hl, ?_⟩
  intro n hn
  obtain ⟨v, rfl⟩ := hall n hn
  obtain ⟨r, hrmem, hr⟩ := findNearestLevel_mem v levels hne
  obtain ⟨k, hk255, rfl⟩ := hpal r hrmem
  rw [hr, finalize_natCast k hk255]
  exact hrmem

theorem palette_membership_witness :
    (applyErrorDiffusion [100, 100, 100, 100] ((2 : ℕ) : ℤ) ((2 : ℕ) : ℤ)
        [0, 255]).length = 2 * 2 ∧
    ∀ n ∈ applyErrorDiffusion [100, 100, 100, 100] ((2 : ℕ) : ℤ) ((2 : ℕ) : ℤ) [0, 255],
      (n : ℚ) ∈ [(0 : ℚ), 255] :=
  palette_membership 2 2 [100, 100, 100, 100] [0, 255] rfl
    (by
      intro v hv
      simp only [List.mem_cons, List.not_mem_nil, or_false] at hv
      rcases hv with rfl | rfl | rfl | rfl <;> exact ⟨100, by norm_num, by norm_num⟩)
    (by simp)
    (by
      intro l hl
      simp only [List.mem_cons, List.not_mem_nil, or_false] at hl
      rcases hl with rfl | rfl
      · exact ⟨0, by norm_num, by norm_num⟩
      · exact ⟨255, by norm_num, by norm_num⟩)
    (by norm_num [List.sorted_cons])

/-- C4: for every real value `v` and non-empty palette sorted strictly
ascending, `findNearestLevel` returns the palette member minimizing the
absolute distance to `v`, and on a tie it returns the first such member in
ascending scan order, i.e. the lower of the tied values. -/
theorem nearest_level_min_tie (v : ℚ) (levels : List ℚ) (hne : levels ≠ [])
    (hsort : levels.Sorted (· < ·)) :
    ∃ r, findNearestLevel (some v) levels = some r ∧ r ∈ levels ∧
      (∀ m ∈ levels, |v - r| ≤ |v - m|) ∧
      (∀ m ∈ levels, |v - m| = |v - r| → r ≤ m) :=
  findNearestLevel_min v levels hne (hsort.imp fun h => le_of_lt h)

theorem nearest_level_min_tie_witness :
    (∃ r, findNearestLevel (some (255 / 2 : ℚ)) [0, 255] = some r ∧ r ∈ [(0 : ℚ), 255] ∧
      (∀ m ∈ [(0 : ℚ), 255], |255 / 2 - r| ≤ |255 / 2 - m|) ∧
      (∀ m ∈ [(0 : ℚ), 255], |255 / 2 - m| = |255 / 2 - r| → r ≤ m)) ∧
    findNearestLevel (some (255 / 2 : ℚ)) [0, 255] = some 0 :=
  ⟨nearest_level_min_tie (255 / 2) [0, 255] (by simp) (by norm_num [List.sorted_cons]),
    by with_unfolding_all rfl⟩

/-- C5: on the 2×2 input `[100, 100, 100, 100]` with palette `[0, 255]`,
`applyErrorDiffusion` returns exactly the hand-simulated Floyd–Steinberg
result `[0, 255, 0, 0]`: pixel `(0,0)` quantizes to `0` with error `100`,
driving pixel `(1,0)` to `143.75` and hence `255`, whose negative error
brings both bottom pixels back below the threshold. -/
theorem two_by_two_hand_sim :
    applyErrorDiffusion [100, 100, 100, 100] 2 2 [0, 255] = [0, 255, 0, 0] := by
  with_unfolding_all rfl

/-- C6: with a palette holding exactly one level `L` (an integer in
`[0,255]`) and any input of matching dimensions, the output is `W*H` copies
of `L` regardless of the input values. -/
theorem single_level_uniform (L : ℕ) (hL : L ≤ 255) (W H : ℕ) (d : List ℚ)
    (hlen : d.length = W * H) :
    applyErrorDiffusion d (W : ℤ) (H : ℤ) [(L : ℚ)] = List.replicate (W * H) L := by
  obtain ⟨hl, hall⟩ := applyErrorDiffusion_cells W H d [(L : ℚ)] hlen
  rw [List.eq_replicate]
  refine ⟨hl, ?_⟩
  intro b hb
  obtain ⟨v, rfl⟩ := hall b hb
  rw [findNearestLevel_singleton, finalize_natCast L hL]

theorem single_level_uniform_witness :
    applyErrorDiffusion [10, 200, 30, 99] ((2 : ℕ) : ℤ) ((2 : ℕ) : ℤ) [((128 : ℕ) : ℚ)]
      = List.replicate (2 * 2) 128 :=
  single_level_uniform 128 (by norm_num) 2 2 [10, 200, 30, 99] rfl

/-- C8: a 1×1 image does not crash: the output is a single-element buffer
holding the palette member nearest to the input value. -/
theorem one_by_one (v : ℚ) (hv : ∃ k : ℕ, k ≤ 255 ∧ v = (k : ℚ))
    (levels : List ℚ) (hne : levels ≠ [])
    (hpal : ∀ l ∈ levels, ∃ k : ℕ, k ≤ 255 ∧ l = (k : ℚ))
    (hsort : levels.Sorted (· < ·)) :
    ∃ r, r ∈ levels ∧ (∀ m ∈ levels, |v - r| ≤ |v - m|) ∧
      ∃ n : ℕ, (n : ℚ) = r ∧ applyErrorDiffusion [v] 1 1 levels = [n] := by
  obtain ⟨r, hfr, hrmem, hmin, -⟩ :=
    findNearestLevel_min v levels hne (hsort.imp fun h => le_of_lt h)
  refine ⟨r, hrmem, hmin, ?_⟩
  obtain ⟨k, hk, rfl⟩ := hpal r hrmem
  exact ⟨k, rfl, by rw [applyErrorDiffusion_one, hfr, finalize_natCast k hk]⟩

theorem one_by_one_witness :
    (∃ r, r ∈ [(0 : ℚ), 51, 102, 153, 204, 255] ∧
      (∀ m ∈ [(0 : ℚ), 51, 102, 153, 204, 255], |60 - r| ≤ |60 - m|) ∧
      ∃ n : ℕ, (n : ℚ) = r ∧
        applyErrorDiffusion [60] 1 1 [0, 51, 102, 153, 204, 255] = [n]) ∧
    applyErrorDiffusion [60] 1 1 [0, 51, 102, 153, 204, 255] = [51] :=
  ⟨one_by_one 60 ⟨60, by norm_num, by norm_num⟩ [0, 51, 102, 153, 204, 255]
      (by simp)
      (by
        intro l hl
        simp only [List.mem_cons, List.not_mem_nil, or_false] at hl
        rcases hl with rfl | rfl | rfl | rfl | rfl | rfl
        · exact ⟨0, by norm_num, by norm_num⟩
        · exact ⟨51, by norm_num, by norm_num⟩
        · exact ⟨102, by norm_num, by norm_num⟩
        · exact ⟨153, by norm_num, by norm_num⟩
        · exact ⟨204, by norm_num, by norm_num⟩
        · exact ⟨255, by norm_num, by norm_num⟩)
      (by norm_num [List.sorted_cons]),
    by with_unfolding_all rfl⟩

/-- C9: each raster step writes its own cell with a quantized palette value,
leaves all earlier cells untouched (every deposit targets a strictly later
cell), and at termination every cell of the buffer holds a palette member. -/
theorem single_write_per_cell (W H : ℕ) (levels : List ℚ) (hne : levels ≠ [])
    (buf : List (Option ℚ)) (hlen : buf.length = W * H)
    (x y : ℕ) (hx : x < W) (hy : y < H) :
    (∀ j : ℕ, j < y * W + x →
      (processPixel (W : ℤ) (H : ℤ) levels buf (x : ℤ) (y : ℤ)).get? j = buf.get? j) ∧
    (∃ r ∈ levels,
      (processPixel (W : ℤ) (H : ℤ) levels buf (x : ℤ) (y : ℤ)).get? (y * W + x)
        = some (some r)) ∧
    (∀ i : ℕ, i < W * H → ∃ r ∈ levels,
      (diffuseLoop (W : ℤ) (H : ℤ) levels buf).get? i = some (some r)) := by
  refine ⟨fun j hj => processPixel_get?_lt W H x y levels buf hx j hj, ?_, ?_⟩
  · obtain ⟨r, hrmem, hr⟩ :=
      findNearestLevel_mem (readBuf buf ((y * W + x : ℕ) : ℤ)) levels hne
    refine ⟨r, hrmem, ?_⟩
    rw [processPixel_get?_self W H x y levels buf hx hy hlen, hr]
  · intro i hi
    obtain ⟨v, hv⟩ := (diffuseLoop_spec W H levels buf hlen).2 i hi
    obtain ⟨r, hrmem, hr⟩ := findNearestLevel_mem v levels hne
    exact ⟨r, hrmem, by rw [hv, hr]⟩

theorem single_write_per_cell_witness :
    (∀ j : ℕ, j < 0 * 2 + 0 →
      (processPixel ((2 : ℕ) : ℤ) ((2 : ℕ) : ℤ) [0, 255]
        [some 100, some 100, some 100, some 100] ((0 : ℕ) : ℤ) ((0 : ℕ) : ℤ)).get? j
        = [some (100 : ℚ), some 100, some 100, some 100].get? j) ∧
    (∃ r ∈ [(0 : ℚ), 255],
      (processPixel ((2 : ℕ) : ℤ) ((2 : ℕ) : ℤ) [0, 255]
        [some 100, some 100, some 100, some 100] ((0 : ℕ) : ℤ) ((0 : ℕ) : ℤ)).get?
          (0 * 2 + 0) = some (some r)) ∧
    (∀ i : ℕ, i < 2 * 2 → ∃ r ∈ [(0 : ℚ), 255],
      (diffuseLoop ((2 : ℕ) : ℤ) ((2 : ℕ) : ℤ) [0, 255]
        [some 100, some 100, some 100, some 100]).get? i = some (some r)) :=
  single_write_per_cell 2 2 [0, 255] (by simp)
    [some 100, some 100, some 100, some 100] rfl 0 0 (by norm_num) (by norm_num)

theorem processPixel_sum_interior_witness :
    sumBuf (processPixel ((3 : ℕ) : ℤ) ((2 : ℕ) : ℤ) [0, 255]
        [some 10, some 20, some 30, some 40, some 50, some 60]
        ((1 : ℕ) : ℤ) ((0 : ℕ) : ℤ))
      = sumBuf [some (10 : ℚ), some 20, some 30, some 40, some 50, some 60] :=
  processPixel_sum_interior 3 2 1 0 [0, 255]
    [some 10, some 20, some 30, some 40, some 50, some 60]
    (by simp)
    (by
      intro c hc
      simp only [List.mem_cons, List.not_mem_nil, or_false] at hc
      rcases hc with rfl | rfl | rfl | rfl | rfl | rfl <;> simp)
    rfl (by norm_num) (by norm_num) (by norm_num)

/-- C10: every element of the buffer returned by `applyErrorDiffusion` lies
in `[0,255]`: the final conversion rounds each working value and clamps it
between `0` and `255` (`NaN` becomes `0`), for any palette whatsoever. -/
theorem output_in_byte_range (d : List ℚ) (W H : ℤ) (levels : List ℚ) :
    ∀ n ∈ applyErrorDiffusion d W H levels, n ≤ 255 := by
  intro n hn
  obtain ⟨c, -, rfl⟩ := List.mem_map.mp hn
  exact finalize_le c

theorem output_in_byte_range_witness :
    255 ∈ applyErrorDiffusion [100] 1 1 [300] ∧ 255 ≤ 255 := by
  have hmem : 255 ∈ applyErrorDiffusion [100] 1 1 [300] := by
    rw [show applyErrorDiffusion [100] 1 1 [300] = [255] by with_unfolding_all rfl]
    simp
  exact ⟨hmem, output_in_byte_range [100] 1 1 [300] 255 hmem⟩

/-- C2 counterexample: on an empty palette `applyErrorDiffusion` does not
fail with any error: the call completes and produces the output buffer
`[0]`, contradicting the claim that no output buffer is produced. -/
theorem empty_palette_counterexample :
    applyErrorDiffusion [100] 1 1 [] = [0] := by
  with_unfolding_all rfl

theorem empty_palette_zeros_witness :
    applyErrorDiffusion [7, 8] ((1 : ℕ) : ℤ) ((2 : ℕ) : ℤ) []
      = List.replicate (1 * 2) 0 :=
  empty_palette_zeros 1 2 [7, 8] rfl

/-- C3 counterexample: with a negative width `applyErrorDiffusion` does not
fail with any error: the call completes and returns the (clamped) input
buffer `[100]` instead of surfacing `InvalidDimensions`. -/
theorem negative_width_counterexample :
    applyErrorDiffusion [100] (-1) 1 [0, 255] = [100] := by
  with_unfolding_all rfl

theorem negative_dims_witness :
    applyErrorDiffusion [300, -5] (-1) 2 [0, 255]
      = List.map (fun v => finalize (some v)) [300, -5] :=
  negative_dims [300, -5] [0, 255] (-1) 2 (Or.inl (by norm_num))

end ErrorDiffusion
